import Mathlib

/-!
Verification of the residue-filter search core of `beal.cc`.

The C++ source is embedded shallowly: machine integers become `Nat` with an
explicit `% 2 ^ w` at the operations where wraparound can actually occur
(the `uint64_t` products inside `modpow`, and the `uint32_t` addition of the
two residues in `work::dowork`).  Loops become structural recursion on a fuel
argument that is initialized, at each call site, to a value provably at least
the number of iterations the C loop performs, so every definition is
executable and the fuel never runs out on the modelled inputs.
-/

namespace Beal

/-! ### `modpow` (beal.cc lines 214-228)

`static inline uint32_t modpow(uint64_t base, uint64_t exponent, uint32_t mod)`
Right-to-left binary exponentiation.  `result` and `base` live in `uint64_t`,
so the two products are taken mod 2^64 before the reduction mod `mod`.
The loop halves `exponent` each iteration, so it runs at most `exponent`
times; the fuel is initialized to `exponent`. -/

def modpowAux : Nat → Nat → Nat → Nat → Nat → Nat
  | 0, result, _, _, _ => result
  | fuel + 1, result, base, exponent, m =>
    if exponent = 0 then result
    else
      modpowAux fuel
        (if exponent % 2 = 1 then result * base % 2 ^ 64 % m else result)
        (base * base % 2 ^ 64 % m) (exponent / 2) m

def modpow (base exponent m : Nat) : Nat :=
  modpowAux exponent 1 (base % m) exponent m

/-! ### `gcd` (beal.cc lines 233-272)

Binary (Stein) GCD on `unsigned int`.  The three inner loops become fueled
recursions: stripping factors of two terminates within `n` steps, and the
subtractive loop strictly decreases `u + v`, so `u + v` steps of fuel are
enough.  All intermediate values are bounded by the inputs, so for 32-bit
inputs no wraparound can occur and plain `Nat` arithmetic is exact. -/

/-- The `while ((u & 1) == 0) u >>= 1;` loop: strip factors of two. -/
def oddPartAux : Nat → Nat → Nat
  | 0, n => n
  | fuel + 1, n => if n % 2 = 0 ∧ n ≠ 0 then oddPartAux fuel (n / 2) else n

def oddPart (n : Nat) : Nat := oddPartAux n n

/-- The `for (shift = 0; ((u | v) & 1) == 0; ++shift)` loop: returns
`(shift, u, v)` after halving both arguments while both are even.  `(u|v)&1 = 0`
iff both are even; the extra `u + v ≠ 0` guard only differs from the C loop at
`u = v = 0`, where the C loop does not terminate and which `gcd` never reaches. -/
def shiftLoopAux : Nat → Nat → Nat → Nat × Nat × Nat
  | 0, u, v => (0, u, v)
  | fuel + 1, u, v =>
    if u % 2 = 0 ∧ v % 2 = 0 ∧ u + v ≠ 0 then
      let r := shiftLoopAux fuel (u / 2) (v / 2)
      (r.1 + 1, r.2.1, r.2.2)
    else (0, u, v)

def shiftLoop (u v : Nat) : Nat × Nat × Nat := shiftLoopAux (u + v) u v

/-- The `do { ... } while (v != 0)` loop: strip twos from `v`, swap so that
`u ≤ v`, subtract.  The returned value is the final (odd) `u`. -/
def gcdLoop : Nat → Nat → Nat → Nat
  | 0, u, _ => u
  | fuel + 1, u, v =>
    if oddPart v < u then
      if u - oddPart v = 0 then oddPart v else gcdLoop fuel (oddPart v) (u - oddPart v)
    else
      if oddPart v - u = 0 then u else gcdLoop fuel u (oddPart v - u)

def gcd (u v : Nat) : Nat :=
  if u = 0 then v
  else if v = 0 then u
  else
    gcdLoop (oddPart (shiftLoop u v).2.1 + (shiftLoop u v).2.2)
      (oddPart (shiftLoop u v).2.1) (shiftLoop u v).2.2 * 2 ^ (shiftLoop u v).1

/-! ### Correctness of `modpow` -/

theorem mod_mul_mod (r c m : Nat) : r % m * c % m = r * c % m :=
  (Nat.mod_modEq r m).mul (Nat.ModEq.refl c)

theorem mul_pow_mod_mod (r b e m : Nat) : r * (b % m) ^ e % m = r * b ^ e % m :=
  (Nat.ModEq.refl r).mul ((Nat.mod_modEq b m).pow e)

theorem modpowAux_exp_zero (fuel result base m : Nat) :
    modpowAux fuel result base 0 m = result := by
  cases fuel <;> simp [modpowAux]

theorem modpowAux_mod_one (fuel : Nat) : ∀ result base exponent : Nat,
    0 < exponent → exponent ≤ fuel → modpowAux fuel result base exponent 1 = 0 := by
  induction fuel with
  | zero => intro r b e he hle; omega
  | succ fuel ih =>
    intro r b e he hle
    have hne : e ≠ 0 := Nat.pos_iff_ne_zero.mp he
    rw [modpowAux, if_neg hne]
    rcases Nat.eq_zero_or_pos (e / 2) with h2 | h2
    · have hodd : e % 2 = 1 := by omega
      rw [h2, modpowAux_exp_zero, if_pos hodd, Nat.mod_one]
    · exact ih _ _ _ h2 (by omega)

theorem modpowAux_eq (fuel : Nat) : ∀ result base exponent m : Nat,
    0 < m → m ≤ 2 ^ 32 → result < m → base < m → exponent ≤ fuel →
    modpowAux fuel result base exponent m = result * base ^ exponent % m := by
  induction fuel with
  | zero =>
    intro r b e m hm _ hr _ he
    have : e = 0 := by omega
    subst this
    simp [modpowAux, Nat.mod_eq_of_lt hr]
  | succ fuel ih =>
    intro r b e m hm hm32 hr hb he
    by_cases he0 : e = 0
    · subst he0
      simp [modpowAux, Nat.mod_eq_of_lt hr]
    · rw [modpowAux, if_neg he0]
      have hbb : b * b < 2 ^ 64 := by
        calc b * b ≤ (2 ^ 32 - 1) * (2 ^ 32 - 1) :=
              Nat.mul_le_mul (by omega) (by omega)
          _ < 2 ^ 64 := by norm_num
      have hb' : b * b % 2 ^ 64 % m < m := Nat.mod_lt _ hm
      have hdiv : e / 2 ≤ fuel := by omega
      by_cases hodd : e % 2 = 1
      · have hrb : r * b < 2 ^ 64 := by
          calc r * b ≤ (2 ^ 32 - 1) * (2 ^ 32 - 1) :=
                Nat.mul_le_mul (by omega) (by omega)
            _ < 2 ^ 64 := by norm_num
        rw [if_pos hodd, ih _ _ _ _ hm hm32 (Nat.mod_lt _ hm) hb' hdiv]
        rw [Nat.mod_eq_of_lt hrb, Nat.mod_eq_of_lt hbb, mul_pow_mod_mod, mod_mul_mod]
        conv_rhs => rw [show e = 2 * (e / 2) + 1 by omega]
        rw [pow_succ, pow_mul, Nat.pow_two]
        congr 1
        ring
      · rw [if_neg hodd, ih _ _ _ _ hm hm32 hr hb' hdiv, Nat.mod_eq_of_lt hbb,
          mul_pow_mod_mod]
        conv_rhs => rw [show e = 2 * (e / 2) by omega]
        rw [pow_mul, Nat.pow_two]

/-- Shared correctness of `modpow`: outside the corner `exponent = 0, m = 1`
it agrees with the arbitrary-precision reference. -/
theorem modpow_eq (base exponent m : Nat) (hm : 0 < m) (hm32 : m ≤ 2 ^ 32)
    (h : 0 < exponent ∨ 1 < m) :
    modpow base exponent m = base ^ exponent % m := by
  unfold modpow
  by_cases hm1 : m = 1
  · subst hm1
    rcases h with h | h
    · rw [modpowAux_mod_one _ _ _ _ h le_rfl, Nat.mod_one]
    · omega
  · have hm2 : 1 < m := by omega
    rw [modpowAux_eq _ _ _ _ _ hm hm32 hm2 (Nat.mod_lt _ hm) le_rfl,
      one_mul, ← Nat.pow_mod]

/-! ### Correctness of `gcd` -/

theorem oddPartAux_le (fuel : Nat) : ∀ n, oddPartAux fuel n ≤ n := by
  induction fuel with
  | zero => intro n; exact le_rfl
  | succ fuel ih =>
    intro n
    rw [oddPartAux]
    split
    · exact le_trans (ih _) (Nat.div_le_self _ _)
    · exact le_rfl

theorem oddPartAux_pos (fuel : Nat) : ∀ n, 0 < n → 0 < oddPartAux fuel n := by
  induction fuel with
  | zero => intro n h; exact h
  | succ fuel ih =>
    intro n h
    rw [oddPartAux]
    split
    · next hc => exact ih _ (by omega)
    · exact h

theorem oddPartAux_spec (fuel : Nat) : ∀ n, 0 < n → n ≤ fuel →
    ∃ k, n = 2 ^ k * oddPartAux fuel n ∧ oddPartAux fuel n % 2 = 1 := by
  induction fuel with
  | zero => intro n h hle; omega
  | succ fuel ih =>
    intro n h hle
    rw [oddPartAux]
    split
    · next hc =>
      obtain ⟨heven, hne⟩ := hc
      have h2 : 0 < n / 2 := by omega
      obtain ⟨k, hk, hodd⟩ := ih (n / 2) h2 (by omega)
      refine ⟨k + 1, ?_, hodd⟩
      calc n = 2 * (n / 2) := by omega
        _ = 2 * (2 ^ k * oddPartAux fuel (n / 2)) := by rw [← hk]
        _ = 2 ^ (k + 1) * oddPartAux fuel (n / 2) := by ring
    · next hc =>
      have : n % 2 = 1 := by omega
      exact ⟨0, by omega, this⟩

theorem oddPartAux_of_odd (fuel n : Nat) (h : n % 2 = 1) :
    oddPartAux fuel n = n := by
  cases fuel with
  | zero => rfl
  | succ fuel => rw [oddPartAux, if_neg (by omega)]

theorem oddPart_le (n : Nat) : oddPart n ≤ n := oddPartAux_le n n

theorem oddPart_pos {n : Nat} (h : 0 < n) : 0 < oddPart n := oddPartAux_pos n n h

theorem oddPart_spec {n : Nat} (h : 0 < n) :
    ∃ k, n = 2 ^ k * oddPart n ∧ oddPart n % 2 = 1 :=
  oddPartAux_spec n n h le_rfl

theorem oddPart_odd {n : Nat} (h : 0 < n) : oddPart n % 2 = 1 :=
  (oddPart_spec h).choose_spec.2

/-- An odd number is coprime to 2. -/
theorem coprime_two_of_odd {u : Nat} (h : u % 2 = 1) : Nat.Coprime 2 u := by
  show Nat.gcd 2 u = 1
  rw [Nat.gcd_rec, h]
  rfl

/-- Stripping factors of two from `v` does not change its gcd with an odd `u`. -/
theorem gcd_oddPartAux (fuel : Nat) : ∀ u v, u % 2 = 1 → v ≤ fuel →
    Nat.gcd u (oddPartAux fuel v) = Nat.gcd u v := by
  induction fuel with
  | zero =>
    intro u v _ hle
    have : v = 0 := by omega
    subst this; rfl
  | succ fuel ih =>
    intro u v hu hle
    rw [oddPartAux]
    split
    · next hc =>
      obtain ⟨heven, hne⟩ := hc
      rw [ih u (v / 2) hu (by omega)]
      conv_rhs => rw [show v = 2 * (v / 2) by omega]
      rw [(coprime_two_of_odd hu).gcd_mul_left_cancel_right]
    · rfl

theorem gcd_oddPart {u : Nat} (v : Nat) (h : u % 2 = 1) :
    Nat.gcd u (oddPart v) = Nat.gcd u v :=
  gcd_oddPartAux v u v h le_rfl

theorem shiftLoopAux_spec (fuel : Nat) : ∀ u v, 0 < u → 0 < v → u + v ≤ fuel →
    u = (shiftLoopAux fuel u v).2.1 * 2 ^ (shiftLoopAux fuel u v).1 ∧
    v = (shiftLoopAux fuel u v).2.2 * 2 ^ (shiftLoopAux fuel u v).1 ∧
    0 < (shiftLoopAux fuel u v).2.1 ∧ 0 < (shiftLoopAux fuel u v).2.2 ∧
    ¬((shiftLoopAux fuel u v).2.1 % 2 = 0 ∧ (shiftLoopAux fuel u v).2.2 % 2 = 0) := by
  induction fuel with
  | zero => intro u v hu hv hle; omega
  | succ fuel ih =>
    intro u v hu hv hle
    rw [shiftLoopAux]
    split
    · next hc =>
      obtain ⟨hue, hve, _⟩ := hc
      have hu2 : 0 < u / 2 := by omega
      have hv2 : 0 < v / 2 := by omega
      obtain ⟨h1, h2, h3, h4, h5⟩ := ih (u / 2) (v / 2) hu2 hv2 (by omega)
      refine ⟨?_, ?_, h3, h4, h5⟩
      · simp only [pow_succ]
        calc u = 2 * (u / 2) := by omega
          _ = 2 * ((shiftLoopAux fuel (u / 2) (v / 2)).2.1 *
                2 ^ (shiftLoopAux fuel (u / 2) (v / 2)).1) := by rw [← h1]
          _ = _ := by ring
      · simp only [pow_succ]
        calc v = 2 * (v / 2) := by omega
          _ = 2 * ((shiftLoopAux fuel (u / 2) (v / 2)).2.2 *
                2 ^ (shiftLoopAux fuel (u / 2) (v / 2)).1) := by rw [← h2]
          _ = _ := by ring
    · next hc =>
      refine ⟨by simp, by simp, hu, hv, ?_⟩
      intro ⟨h1, h2⟩
      exact hc ⟨h1, h2, by omega⟩

theorem shiftLoop_spec (u v : Nat) (hu : 0 < u) (hv : 0 < v) :
    u = (shiftLoop u v).2.1 * 2 ^ (shiftLoop u v).1 ∧
    v = (shiftLoop u v).2.2 * 2 ^ (shiftLoop u v).1 ∧
    0 < (shiftLoop u v).2.1 ∧ 0 < (shiftLoop u v).2.2 ∧
    ¬((shiftLoop u v).2.1 % 2 = 0 ∧ (shiftLoop u v).2.2 % 2 = 0) :=
  shiftLoopAux_spec (u + v) u v hu hv le_rfl

theorem gcdLoop_eq (fuel : Nat) : ∀ u v, u % 2 = 1 → 0 < v → u + v ≤ fuel + 1 →
    gcdLoop fuel u v = Nat.gcd u v := by
  induction fuel with
  | zero => intro u v hu hv hle; omega
  | succ fuel ih =>
    intro u v hu hv hle
    rw [gcdLoop]
    have hv1pos : 0 < oddPart v := oddPart_pos hv
    have hv1le : oddPart v ≤ v := oddPart_le v
    have hgcd : Nat.gcd u (oddPart v) = Nat.gcd u v := gcd_oddPart v hu
    have hv1odd : oddPart v % 2 = 1 := oddPart_odd hv
    by_cases hlt : oddPart v < u
    · rw [if_pos hlt, if_neg (by omega)]
      rw [ih (oddPart v) (u - oddPart v) hv1odd (by omega) (by omega)]
      rw [Nat.gcd_sub_self_right (le_of_lt hlt), Nat.gcd_comm, hgcd]
    · rw [if_neg hlt]
      have hle' : u ≤ oddPart v := by omega
      by_cases heq : oddPart v - u = 0
      · rw [if_pos heq]
        have : oddPart v = u := by omega
        rw [← hgcd, this, Nat.gcd_self]
      · rw [if_neg heq]
        rw [ih u (oddPart v - u) hu (by omega) (by omega)]
        rw [Nat.gcd_sub_self_right hle', hgcd]

/-- Shared correctness of the binary `gcd`: it computes `Nat.gcd`.
All intermediate values are bounded by the inputs, so no 32-bit wraparound
occurs for machine-range inputs and the statement holds for all of `Nat`. -/
theorem gcd_eq (u v : Nat) : gcd u v = Nat.gcd u v := by
  unfold gcd
  by_cases hu : u = 0
  · subst hu; simp
  · rw [if_neg hu]
    by_cases hv : v = 0
    · subst hv; simp
    · rw [if_neg hv]
      obtain ⟨h1, h2, h3, h4, h5⟩ := shiftLoop_spec u v (by omega) (by omega)
      set k := (shiftLoop u v).1 with hk
      set u' := (shiftLoop u v).2.1 with hu'
      set v' := (shiftLoop u v).2.2 with hv'
      have hu1odd : oddPart u' % 2 = 1 := oddPart_odd h3
      have hu1pos : 0 < oddPart u' := oddPart_pos h3
      rw [gcdLoop_eq _ _ _ hu1odd h4 (Nat.le_succ _)]
      have hmain : Nat.gcd (oddPart u') v' = Nat.gcd u' v' := by
        by_cases hodd : u' % 2 = 1
        · rw [oddPart, oddPartAux_of_odd _ _ hodd]
        · have hv'odd : v' % 2 = 1 := by omega
          rw [Nat.gcd_comm, gcd_oddPart u' hv'odd, Nat.gcd_comm]
      rw [hmain]
      conv_rhs => rw [h1, h2]
      rw [Nat.gcd_mul_right]

/-! ### The `cz` residue index (beal.cc lines 279-314)

The constructor iterates `c ∈ [1, maxb]`, `z ∈ [3, maxp]`, stores
`vals_[c][z] = modpow(c, z, mod)` and sets the bit `exists_[vals_[c][z]]`.
`czPairs` is the list of `(c, z)` pairs the construction loop visits;
`czGet` is the stored table entry for a populated pair, and `czExists` holds
exactly when some visited pair wrote the queried bit. -/

def czPairs (maxb maxp : Nat) : List (Nat × Nat) :=
  (List.range' 1 maxb).flatMap fun c =>
    (List.range' 3 (maxp - 2)).map fun z => (c, z)

def czGet (mod c z : Nat) : Nat := modpow c z mod

def czExists (maxb maxp mod val : Nat) : Bool :=
  (czPairs maxb maxp).any fun p => czGet mod p.1 p.2 == val

theorem mem_czPairs (maxb maxp c z : Nat) (hp : 3 ≤ maxp) :
    (c, z) ∈ czPairs maxb maxp ↔
      1 ≤ c ∧ c ≤ maxb ∧ 3 ≤ z ∧ z ≤ maxp := by
  simp only [czPairs, List.mem_flatMap, List.mem_map, List.mem_range'_1]
  constructor
  · rintro ⟨c', ⟨hc1, hc2⟩, z', ⟨hz1, hz2⟩, heq⟩
    obtain ⟨rfl, rfl⟩ := Prod.mk.injEq .. ▸ heq
    omega
  · rintro ⟨h1, h2, h3, h4⟩
    exact ⟨c, ⟨h1, by omega⟩, z, ⟨h3, by omega⟩, rfl⟩

theorem czExists_true_iff (maxb maxp mod val : Nat) :
    czExists maxb maxp mod val = true ↔
      ∃ p ∈ czPairs maxb maxp, czGet mod p.1 p.2 = val := by
  simp only [czExists, List.any_eq_true, beq_iff_eq]

/-! ### The `axby` enumerator (beal.cc lines 326-392)

A `point` is the mutable `(a, x, b, y)` record; `Axby` is the cursor state
(`maxb_`, `maxp_`, `p_`, `a_dim_`).  The constructor starts from
`(a, 3, 1, 3)` and decrements `y` so the first `next()` lands on the first
point.  `findB` is the inner `for (;;)` loop advancing `b` past values
sharing a factor with `a`; it runs at most `a + 1 - b` times, which is the
fuel.  `axbyNext` is one call of `next(bool *done)`. -/

structure Pt where
  a : Nat
  x : Nat
  b : Nat
  y : Nat
deriving DecidableEq

structure Axby where
  maxb : Nat
  maxp : Nat
  p : Pt
  adim : Nat
deriving DecidableEq

def axbyInit (maxb maxp a : Nat) : Axby :=
  { maxb := maxb, maxp := maxp, p := ⟨a, 3, 1, 2⟩, adim := a }

def findBAux : Nat → Nat → Nat → Nat × Bool
  | 0, _, b => (b, true)
  | fuel + 1, a, b =>
    if a < b then (b, true)
    else if 1 < gcd a b then findBAux fuel a (b + 1)
    else (b, false)

def findB (a b : Nat) : Nat × Bool := findBAux (a + 1 - b) a b

/-- The assertion `assert(p_.a == a_dim_)` at the head of `next`. -/
def axbyNextPre (s : Axby) : Prop := s.p.a = s.adim

def axbyNext (s : Axby) : Pt × Bool × Axby :=
  if s.p.y + 1 ≤ s.maxp then
    let p : Pt := ⟨s.p.a, s.p.x, s.p.b, s.p.y + 1⟩
    (p, false, { s with p := p })
  else if s.p.x + 1 ≤ s.maxp then
    let p : Pt := ⟨s.p.a, s.p.x + 1, s.p.b, 3⟩
    (p, false, { s with p := p })
  else if (findB s.p.a (s.p.b + 1)).2 then
    let p : Pt := ⟨s.p.a + 1, 3, (findB s.p.a (s.p.b + 1)).1, 3⟩
    (p, true, { s with p := p })
  else
    let p : Pt := ⟨s.p.a, 3, (findB s.p.a (s.p.b + 1)).1, 3⟩
    (p, false, { s with p := p })

/-- Drive the cursor: collect the emitted points, and report whether
`done` was signalled within `fuel` calls. -/
def axbyRun : Nat → Axby → List Pt × Bool
  | 0, _ => ([], false)
  | fuel + 1, s =>
    if (axbyNext s).2.1 then ([], true)
    else
      ((axbyNext s).1 :: (axbyRun fuel (axbyNext s).2.2).1,
        (axbyRun fuel (axbyNext s).2.2).2)

/-! ### The worker search loop (beal.cc lines 394-435)

`dowork(a)` walks the enumerator; for each point it consults the `cz`
indices in their declared order, breaking at the first one whose bit is
unset, and prints the point as a candidate when every index accepted.
The C++ statement `uint64_t tmp = czp->get(pt.a, pt.x) + czp->get(pt.b, pt.y)`
adds two `uint32_t` values: the addition is performed in 32-bit unsigned
arithmetic and wraps modulo 2^32 *before* widening to 64 bits, which the
embedding records with an explicit `% 2 ^ 32`. -/

def pointTest (maxb maxp m : Nat) (p : Pt) : Bool :=
  czExists maxb maxp m ((czGet m p.a p.x + czGet m p.b p.y) % 2 ^ 32 % m)

def filterPoint (maxb maxp : Nat) (mods : List Nat) (p : Pt) : Bool :=
  mods.all fun m => pointTest maxb maxp m p

def doworkLoop (maxb maxp : Nat) (mods : List Nat) : Nat → Axby → List Pt
  | 0, _ => []
  | fuel + 1, s =>
    if (axbyNext s).2.1 then []
    else if filterPoint maxb maxp mods (axbyNext s).1 then
      (axbyNext s).1 :: doworkLoop maxb maxp mods fuel (axbyNext s).2.2
    else doworkLoop maxb maxp mods fuel (axbyNext s).2.2

/-! ### The specified emission list

`axbySpecList` is the list the specification promises: for fixed `a`, all
`(a, x, b, y)` with `1 ≤ b ≤ a`, `gcd(a, b) = 1`, `3 ≤ x, y ≤ maxp`,
ordered lexicographically on `(b, x, y)` with `y` fastest. -/

def yBlock (maxp a x b : Nat) : List Pt :=
  (List.range' 3 (maxp - 2)).map fun y => Pt.mk a x b y

def xyBlock (maxp a b : Nat) : List Pt :=
  (List.range' 3 (maxp - 2)).flatMap fun x => yBlock maxp a x b

def axbySpecList (maxp a : Nat) : List Pt :=
  ((List.range' 1 a).filter fun b => Nat.gcd a b = 1).flatMap fun b =>
    xyBlock maxp a b

/-- Total number of points the worker loop can emit for shard `a`,
used to size the fuel of `dowork`. -/
def dowork (maxb maxp : Nat) (mods : List Nat) (a : Nat) : List Pt :=
  doworkLoop maxb maxp mods ((axbySpecList maxp a).length + 1) (axbyInit maxb maxp a)

/-! ### Remainder lists

`remPts maxp a x b y` is the list of points the cursor still has to emit
when its point field holds `(a, x, b, y)`: the rest of the current `y` row,
the remaining `x` rows of the current `b`, and the blocks of the remaining
coprime `b` values. -/

def tailY (maxp a x b y : Nat) : List Pt :=
  (List.range' (y + 1) (maxp - y)).map fun y' => Pt.mk a x b y'

def tailX (maxp a x b : Nat) : List Pt :=
  (List.range' (x + 1) (maxp - x)).flatMap fun x' => yBlock maxp a x' b

def tailB (maxp a b : Nat) : List Pt :=
  ((List.range' (b + 1) (a - b)).filter fun b' => Nat.gcd a b' = 1).flatMap fun b' =>
    xyBlock maxp a b'

def remPts (maxp a x b y : Nat) : List Pt :=
  tailY maxp a x b y ++ (tailX maxp a x b ++ tailB maxp a b)

theorem tailY_step (maxp a x b y : Nat) (h : y < maxp) :
    tailY maxp a x b y = Pt.mk a x b (y + 1) :: tailY maxp a x b (y + 1) := by
  unfold tailY
  rw [show maxp - y = (maxp - (y + 1)) + 1 by omega, List.range'_succ, List.map_cons]

theorem tailY_nil (maxp a x b : Nat) : tailY maxp a x b maxp = [] := by
  unfold tailY
  rw [Nat.sub_self]
  rfl

theorem yBlock_eq (maxp a x b : Nat) (h : 3 ≤ maxp) :
    yBlock maxp a x b = Pt.mk a x b 3 :: tailY maxp a x b 3 := by
  unfold yBlock tailY
  rw [show maxp - 2 = (maxp - 3) + 1 by omega, List.range'_succ, List.map_cons]

theorem tailX_step (maxp a x b : Nat) (h : x < maxp) (h3 : 3 ≤ maxp) :
    tailX maxp a x b =
      Pt.mk a (x + 1) b 3 :: (tailY maxp a (x + 1) b 3 ++ tailX maxp a (x + 1) b) := by
  unfold tailX
  rw [show maxp - x = (maxp - (x + 1)) + 1 by omega, List.range'_succ,
    List.flatMap_cons, yBlock_eq _ _ _ _ h3, List.cons_append]

theorem tailX_nil (maxp a b : Nat) : tailX maxp a maxp b = [] := by
  unfold tailX
  rw [Nat.sub_self]
  rfl

theorem xyBlock_eq (maxp a b : Nat) (h3 : 3 ≤ maxp) :
    xyBlock maxp a b =
      Pt.mk a 3 b 3 :: (tailY maxp a 3 b 3 ++ tailX maxp a 3 b) := by
  unfold xyBlock tailX
  rw [show maxp - 2 = (maxp - 3) + 1 by omega, List.range'_succ,
    List.flatMap_cons, yBlock_eq _ _ _ _ h3, List.cons_append]

/-- Splitting a filtered interval at its first kept element. -/
theorem filter_range'_cons {P : Nat → Bool} (n : Nat) : ∀ s b' rest,
    (List.range' s n).filter P = b' :: rest →
    s ≤ b' ∧ b' < s + n ∧ P b' = true ∧
      rest = (List.range' (b' + 1) (s + n - (b' + 1))).filter P := by
  induction n with
  | zero =>
    intro s b' rest h
    simp at h
  | succ n ih =>
    intro s b' rest h
    rw [List.range'_succ, List.filter_cons] at h
    by_cases hp : P s
    · rw [if_pos hp] at h
      obtain ⟨rfl, rfl⟩ := List.cons.injEq .. ▸ h
      refine ⟨le_rfl, by omega, hp, ?_⟩
      rw [show s + (n + 1) - (s + 1) = n by omega]
    · rw [if_neg hp] at h
      obtain ⟨h1, h2, h3, h4⟩ := ih (s + 1) b' rest h
      refine ⟨by omega, by omega, h3, ?_⟩
      rw [show s + (n + 1) - (b' + 1) = s + 1 + n - (b' + 1) by omega]
      exact h4

/-! ### The inner `b`-advance loop -/

theorem findBAux_rolled (fuel : Nat) : ∀ a b0, 1 ≤ b0 → b0 ≤ a + 1 →
    a + 1 - b0 = fuel →
    ((List.range' b0 (a + 1 - b0)).filter fun t => Nat.gcd a t = 1) = [] →
    findBAux fuel a b0 = (a + 1, true) := by
  induction fuel with
  | zero =>
    intro a b0 h1 h2 hf _
    have : b0 = a + 1 := by omega
    subst this
    rfl
  | succ fuel ih =>
    intro a b0 h1 h2 hf hfilter
    have hb0a : b0 ≤ a := by omega
    rw [hf, List.range'_succ, List.filter_cons] at hfilter
    by_cases hp : Nat.gcd a b0 = 1
    · rw [if_pos (by simpa using hp)] at hfilter
      exact absurd hfilter (List.cons_ne_nil _ _)
    · rw [if_neg (by simpa using hp)] at hfilter
      have hgpos : 0 < Nat.gcd a b0 := Nat.gcd_pos_of_pos_left _ (by omega)
      rw [findBAux, if_neg (by omega), if_pos (by rw [gcd_eq]; omega)]
      have := ih a (b0 + 1) (by omega) (by omega) (by omega)
        (by rw [show a + 1 - (b0 + 1) = fuel by omega]; exact hfilter)
      exact this

theorem findBAux_found (fuel : Nat) : ∀ a b0 b' rest, 1 ≤ b0 → b0 ≤ a + 1 →
    a + 1 - b0 = fuel →
    ((List.range' b0 (a + 1 - b0)).filter fun t => Nat.gcd a t = 1) = b' :: rest →
    findBAux fuel a b0 = (b', false) := by
  induction fuel with
  | zero =>
    intro a b0 b' rest _ _ hf hfilter
    rw [hf] at hfilter
    simp at hfilter
  | succ fuel ih =>
    intro a b0 b' rest h1 h2 hf hfilter
    have hb0a : b0 ≤ a := by omega
    rw [hf, List.range'_succ, List.filter_cons] at hfilter
    by_cases hp : Nat.gcd a b0 = 1
    · rw [if_pos (by simpa using hp)] at hfilter
      obtain ⟨rfl, -⟩ := List.cons.injEq .. ▸ hfilter
      rw [findBAux, if_neg (by omega), if_neg (by rw [gcd_eq, hp]; omega)]
    · rw [if_neg (by simpa using hp)] at hfilter
      have hgpos : 0 < Nat.gcd a b0 := Nat.gcd_pos_of_pos_left _ (by omega)
      rw [findBAux, if_neg (by omega), if_pos (by rw [gcd_eq]; omega)]
      exact ih a (b0 + 1) b' rest (by omega) (by omega) (by omega)
        (by rw [show a + 1 - (b0 + 1) = fuel by omega]; exact hfilter)

theorem findB_rolled (a b0 : Nat) (h1 : 1 ≤ b0) (h2 : b0 ≤ a + 1)
    (h : ((List.range' b0 (a + 1 - b0)).filter fun t => Nat.gcd a t = 1) = []) :
    findB a b0 = (a + 1, true) :=
  findBAux_rolled (a + 1 - b0) a b0 h1 h2 rfl h

theorem findB_found (a b0 b' : Nat) (rest : List Nat) (h1 : 1 ≤ b0) (h2 : b0 ≤ a + 1)
    (h : ((List.range' b0 (a + 1 - b0)).filter fun t => Nat.gcd a t = 1) = b' :: rest) :
    findB a b0 = (b', false) :=
  findBAux_found (a + 1 - b0) a b0 b' rest h1 h2 rfl h

/-! ### One-step behaviour of `next` -/

theorem axbyNext_y (maxb maxp a x b y adim : Nat) (h : y + 1 ≤ maxp) :
    axbyNext ⟨maxb, maxp, ⟨a, x, b, y⟩, adim⟩ =
      (⟨a, x, b, y + 1⟩, false, ⟨maxb, maxp, ⟨a, x, b, y + 1⟩, adim⟩) := by
  unfold axbyNext
  rw [if_pos h]

theorem axbyNext_x (maxb maxp a x b y adim : Nat) (h1 : ¬(y + 1 ≤ maxp))
    (h2 : x + 1 ≤ maxp) :
    axbyNext ⟨maxb, maxp, ⟨a, x, b, y⟩, adim⟩ =
      (⟨a, x + 1, b, 3⟩, false, ⟨maxb, maxp, ⟨a, x + 1, b, 3⟩, adim⟩) := by
  unfold axbyNext
  rw [if_neg h1, if_pos h2]

theorem axbyNext_found (maxb maxp a x b y adim b' : Nat) (h1 : ¬(y + 1 ≤ maxp))
    (h2 : ¬(x + 1 ≤ maxp)) (hfb : findB a (b + 1) = (b', false)) :
    axbyNext ⟨maxb, maxp, ⟨a, x, b, y⟩, adim⟩ =
      (⟨a, 3, b', 3⟩, false, ⟨maxb, maxp, ⟨a, 3, b', 3⟩, adim⟩) := by
  unfold axbyNext
  rw [if_neg h1, if_neg h2]
  simp only [hfb, Bool.false_eq_true, if_false]

theorem axbyNext_rolled (maxb maxp a x b y adim b' : Nat) (h1 : ¬(y + 1 ≤ maxp))
    (h2 : ¬(x + 1 ≤ maxp)) (hfb : findB a (b + 1) = (b', true)) :
    axbyNext ⟨maxb, maxp, ⟨a, x, b, y⟩, adim⟩ =
      (⟨a + 1, 3, b', 3⟩, true, ⟨maxb, maxp, ⟨a + 1, 3, b', 3⟩, adim⟩) := by
  unfold axbyNext
  rw [if_neg h1, if_neg h2]
  simp only [hfb, if_true]

/-! ### The simulation: the cursor emits exactly the remainder list -/

theorem axbyRun_sim (fuel : Nat) : ∀ maxb maxp a x b y adim,
    3 ≤ maxp → 1 ≤ b → b ≤ a → 3 ≤ x → x ≤ maxp → 2 ≤ y → y ≤ maxp →
    (remPts maxp a x b y).length < fuel →
    axbyRun fuel ⟨maxb, maxp, ⟨a, x, b, y⟩, adim⟩ = (remPts maxp a x b y, true) := by
  induction fuel with
  | zero =>
    intro maxb maxp a x b y adim _ _ _ _ _ _ _ hlen
    omega
  | succ fuel ih =>
    intro maxb maxp a x b y adim hp3 hb1 hba hx3 hxp hy2 hyp hlen
    by_cases hy : y + 1 ≤ maxp
    · have hstep : remPts maxp a x b y = Pt.mk a x b (y + 1) :: remPts maxp a x b (y + 1) := by
        unfold remPts
        rw [tailY_step maxp a x b y (by omega), List.cons_append]
      rw [axbyRun, axbyNext_y _ _ _ _ _ _ _ hy]
      have hrec := ih maxb maxp a x b (y + 1) adim hp3 hb1 hba hx3 hxp (by omega) hy
        (by rw [hstep] at hlen; simp at hlen; omega)
      simp only [hrec, hstep]
      simp
    · have hyeq : y = maxp := by omega
      rw [hyeq] at hlen ⊢
      by_cases hx : x + 1 ≤ maxp
      · have hstep : remPts maxp a x b maxp =
            Pt.mk a (x + 1) b 3 :: remPts maxp a (x + 1) b 3 := by
          unfold remPts
          rw [tailY_nil, tailX_step maxp a x b (by omega) hp3, List.nil_append,
            List.cons_append, List.append_assoc]
        rw [axbyRun, axbyNext_x maxb maxp a x b maxp adim (by omega) hx]
        have hrec := ih maxb maxp a (x + 1) b 3 adim hp3 hb1 hba (by omega) hx
          (by omega) hp3 (by rw [hstep] at hlen; simp at hlen; omega)
        simp only [hrec, hstep]
        simp
      · have hxeq : x = maxp := by omega
        rw [hxeq] at hlen ⊢
        rcases hfb : (List.range' (b + 1) (a - b)).filter fun t => Nat.gcd a t = 1 with
          _ | ⟨b', rest⟩
        · have hroll : findB a (b + 1) = (a + 1, true) :=
            findB_rolled a (b + 1) (by omega) (by omega)
              (by rw [show a + 1 - (b + 1) = a - b by omega]; exact hfb)
          have hnil : remPts maxp a maxp b maxp = [] := by
            unfold remPts tailB
            rw [tailY_nil, tailX_nil, hfb]
            rfl
          rw [axbyRun, axbyNext_rolled maxb maxp a maxp b maxp adim (a + 1)
            (by omega) (by omega) hroll]
          simp only [hnil]
          simp
        · obtain ⟨hb'1, hb'2, hb'cop, hrest⟩ := filter_range'_cons _ _ _ _ hfb
          have hfound : findB a (b + 1) = (b', false) :=
            findB_found a (b + 1) b' rest (by omega) (by omega)
              (by rw [show a + 1 - (b + 1) = a - b by omega]; exact hfb)
          have hstep : remPts maxp a maxp b maxp =
              Pt.mk a 3 b' 3 :: remPts maxp a 3 b' 3 := by
            unfold remPts
            rw [tailY_nil, tailX_nil, List.nil_append, List.nil_append]
            unfold tailB
            rw [hfb, List.flatMap_cons, xyBlock_eq _ _ _ hp3, List.cons_append,
              hrest, show b + 1 + (a - b) - (b' + 1) = a - b' by omega,
              List.append_assoc]
          rw [axbyRun, axbyNext_found maxb maxp a maxp b maxp adim b'
            (by omega) (by omega) hfound]
          have hrec := ih maxb maxp a 3 b' 3 adim hp3 (by omega)
            (by omega) (by omega) hp3 (by omega) hp3
            (by rw [hstep] at hlen; simp at hlen; omega)
          simp only [hrec, hstep]
          simp

/-- The initial remainder list is the full specified emission list. -/
theorem remPts_init (maxp a : Nat) (ha : 1 ≤ a) (hp3 : 3 ≤ maxp) :
    axbySpecList maxp a = remPts maxp a 3 1 2 := by
  have hr : List.range' 1 a = 1 :: List.range' 2 (a - 1) := by
    conv_lhs => rw [show a = (a - 1) + 1 by omega]
    rw [List.range'_succ]
  unfold axbySpecList remPts tailB
  rw [hr, List.filter_cons, if_pos (by simp [Nat.gcd_one_right]), List.flatMap_cons,
    xyBlock_eq _ _ _ hp3, tailY_step maxp a 3 1 2 (by omega)]
  simp only [List.cons_append, List.append_assoc]

/-- Running the cursor from `axbyInit` with enough fuel yields exactly the
specified list and then signals done. -/
theorem axbyRun_init (maxb maxp a fuel : Nat) (ha : 1 ≤ a) (hp3 : 3 ≤ maxp)
    (hfuel : (axbySpecList maxp a).length < fuel) :
    axbyRun fuel (axbyInit maxb maxp a) = (axbySpecList maxp a, true) := by
  rw [remPts_init maxp a ha hp3] at hfuel ⊢
  exact axbyRun_sim fuel maxb maxp a 3 1 2 a hp3 le_rfl ha le_rfl hp3 le_rfl
    (by omega) hfuel

/-- Membership in the specified emission list, characterised by the point's
coordinates. -/
theorem mem_axbySpecList (maxp a : Nat) (p : Pt) (hp3 : 3 ≤ maxp) :
    p ∈ axbySpecList maxp a ↔
      p.a = a ∧ 1 ≤ p.b ∧ p.b ≤ a ∧ Nat.gcd a p.b = 1 ∧
        3 ≤ p.x ∧ p.x ≤ maxp ∧ 3 ≤ p.y ∧ p.y ≤ maxp := by
  obtain ⟨pa, px, pb, py⟩ := p
  simp only [axbySpecList, xyBlock, yBlock, List.mem_flatMap, List.mem_filter,
    List.mem_map, List.mem_range'_1, decide_eq_true_eq]
  constructor
  · rintro ⟨b, ⟨⟨hb1, hb2⟩, hgcd⟩, x, ⟨hx1, hx2⟩, y, ⟨hy1, hy2⟩, heq⟩
    obtain ⟨rfl, rfl, rfl, rfl⟩ := Pt.mk.injEq .. ▸ heq
    exact ⟨rfl, hb1, by omega, hgcd, hx1, by omega, hy1, by omega⟩
  · rintro ⟨rfl, hb1, hb2, hgcd, hx1, hx2, hy1, hy2⟩
    exact ⟨pb, ⟨⟨hb1, by omega⟩, hgcd⟩, px, ⟨hx1, by omega⟩, py, ⟨hy1, by omega⟩, rfl⟩

/-! ### The worker loop filters the emitted stream -/

theorem doworkLoop_eq (maxb maxp : Nat) (mods : List Nat) (fuel : Nat) :
    ∀ s, doworkLoop maxb maxp mods fuel s =
      ((axbyRun fuel s).1).filter (filterPoint maxb maxp mods) := by
  induction fuel with
  | zero => intro s; rfl
  | succ fuel ih =>
    intro s
    rw [doworkLoop, axbyRun]
    by_cases hdone : (axbyNext s).2.1
    · rw [if_pos hdone, if_pos hdone]
      rfl
    · rw [if_neg hdone, if_neg hdone, List.filter_cons, ih]

/-- `dowork` emits, in enumeration order, exactly the points of the specified
stream on which every configured index accepts the (32-bit wrapped) residue. -/
theorem dowork_eq_filter (maxb maxp : Nat) (mods : List Nat) (a : Nat)
    (ha : 1 ≤ a) (hp3 : 3 ≤ maxp) :
    dowork maxb maxp mods a =
      (axbySpecList maxp a).filter (filterPoint maxb maxp mods) := by
  unfold dowork
  rw [doworkLoop_eq, axbyRun_init maxb maxp a _ ha hp3 (by omega)]

/-! ## The claims -/

/-- C2: for every `maxb ≥ 1`, `maxp ≥ 3` and `1 ≤ a ≤ maxb`, the sequence of
points the cursor returns before `done` is exactly the list of tuples
`(a, x, b, y)` with `1 ≤ b ≤ a`, `gcd(a, b) = 1`, `3 ≤ x, y ≤ maxp` in
lexicographic order on `(b, x, y)` with `y` fastest (each exactly once, and
nothing else), and `done = true` is signalled on the call immediately after
the last valid point: with fuel `length + 1` the run ends with `done`. -/
theorem enumerator_emits_spec_list (maxb maxp a fuel : Nat)
    (ha1 : 1 ≤ a) (ha2 : a ≤ maxb) (hp3 : 3 ≤ maxp)
    (hfuel : (axbySpecList maxp a).length + 1 ≤ fuel) :
    axbyRun fuel (axbyInit maxb maxp a) = (axbySpecList maxp a, true) :=
  axbyRun_init maxb maxp a fuel ha1 hp3 (by omega)

theorem enumerator_emits_spec_list_witness :
    axbyRun 2 (axbyInit 3 3 2) = (axbySpecList 3 2, true) ∧
      axbySpecList 3 2 = [⟨2, 3, 1, 3⟩] :=
  ⟨enumerator_emits_spec_list 3 3 2 2 (by decide) (by decide) (by decide) (by decide),
    by decide⟩

/-- C3 counterexample: with the single modulus 4156434777 (between 2^31 and
2^32), `maxb = 3`, `maxp = 31`, the point (3, 21, 2, 31) is emitted by
`dowork 3` as a candidate although the claim's test
`exists((get(a,x) + get(b,y)) mod m)` fails: the residues are 2^31 + 1 and
2^31, their integer sum 2^32 + 1 wraps to 1 in the 32-bit addition, and the
index accepts the wrapped residue 1 while rejecting the true one. -/
theorem candidate_iff_math_test_counterexample :
    Pt.mk 3 21 2 31 ∈ dowork 3 31 [4156434777] 3 ∧
      czExists 3 31 4156434777
        ((czGet 4156434777 3 21 + czGet 4156434777 2 31) % 4156434777) = false := by
  constructor
  · rw [dowork_eq_filter 3 31 [4156434777] 3 (by decide) (by decide), List.mem_filter]
    exact ⟨(mem_axbySpecList 31 3 _ (by decide)).2 (by decide), by decide⟩
  · decide

/-- C3 (amended): a point of the emitted stream is emitted as a candidate iff
for every configured modulus `m` (consulted in declared order, short-circuiting
at the first failure) the test `exists(((get(a,x) + get(b,y)) mod 2^32) mod m)`
succeeds — the sum of the two residues is computed in 32-bit arithmetic — and
candidates appear in exactly the enumerator's emission order. -/
theorem candidate_iff_all_indices_accept (maxb maxp : Nat) (mods : List Nat)
    (a : Nat) (ha : 1 ≤ a) (hp3 : 3 ≤ maxp) :
    dowork maxb maxp mods a =
        (axbySpecList maxp a).filter (filterPoint maxb maxp mods) ∧
      (∀ p : Pt, filterPoint maxb maxp [] p = true) ∧
      (∀ (m : Nat) (ms : List Nat) (p : Pt), filterPoint maxb maxp (m :: ms) p =
        (pointTest maxb maxp m p && filterPoint maxb maxp ms p)) ∧
      (∀ p ∈ axbySpecList maxp a,
        (p ∈ dowork maxb maxp mods a ↔ ∀ m ∈ mods, pointTest maxb maxp m p = true)) := by
  refine ⟨dowork_eq_filter maxb maxp mods a ha hp3, fun p => rfl,
    fun m ms p => by simp [filterPoint], ?_⟩
  intro p hp
  rw [dowork_eq_filter maxb maxp mods a ha hp3, List.mem_filter]
  simp [filterPoint, List.all_eq_true, hp]

theorem candidate_iff_all_indices_accept_witness :
    (Pt.mk 1 3 1 3 ∈ dowork 1 3 [2] 1 ↔
      ∀ m ∈ [2], pointTest 1 3 m (Pt.mk 1 3 1 3) = true) :=
  (candidate_iff_all_indices_accept 1 3 [2] 1 (by decide) (by decide)).2.2.2
    (Pt.mk 1 3 1 3) (by decide)

set_option maxRecDepth 16000 in
/-- C1 (evaluation at the failing input): with `maxb = 7`, `maxp = 31` and the
single modulus 3656941306, the emitted point (3, 20, 2, 31) satisfies the
counterexample-shaped congruence `3^20 + 2^31 ≡ 7^11 (mod m)` with `(7, 11)`
in range, the index does contain the true residue of the sum, and yet
`dowork 3` rejects the point: its 32-bit-wrapped residue is not in the index.
Per the claim (and the spec's one-sidedness argument) any point whose sum is
congruent to an in-range `c^z` must pass the `m`-filter. -/
theorem one_sided_filter_eval :
    Pt.mk 3 20 2 31 ∈ axbySpecList 31 3 ∧
      (3 ^ 20 + 2 ^ 31) % 3656941306 = 7 ^ 11 % 3656941306 ∧
      czGet 3656941306 3 20 = 3 ^ 20 % 3656941306 ∧
      czGet 3656941306 2 31 = 2 ^ 31 % 3656941306 ∧
      czExists 7 31 3656941306
        ((czGet 3656941306 3 20 + czGet 3656941306 2 31) % 3656941306) = true ∧
      Pt.mk 3 20 2 31 ∉ dowork 7 31 [3656941306] 3 := by
  refine ⟨(mem_axbySpecList 31 3 _ (by decide)).2 (by decide), by decide, by decide,
    by decide, by decide, ?_⟩
  rw [dowork_eq_filter 7 31 [3656941306] 3 (by decide) (by decide), List.mem_filter]
  intro hmem
  have hf : filterPoint 7 31 [3656941306] (Pt.mk 3 20 2 31) = false := by decide
  rw [hf] at hmem
  exact Bool.false_ne_true hmem.2

/-- C4 counterexample: at `base = 0`, `exp = 0`, `m = 1` (all in the claimed
ranges) `modpow` returns 1, while the arbitrary-precision reference
`0^0 mod 1` is 0. -/
theorem modpow_matches_reference_counterexample : modpow 0 0 1 ≠ 0 ^ 0 % 1 := by
  decide

/-- C4 (amended): for all `base, exp` in `[0, 2^64)` and `0 < m < 2^32`,
except in the corner `exp = 0 ∧ m = 1`, `modpow base exp m` equals
`base^exp mod m` computed with arbitrary precision (the pre-reduction
`base % m` included in the model). -/
theorem modpow_matches_reference (base exp m : Nat)
    (hb : base < 2 ^ 64) (he : exp < 2 ^ 64) (hm1 : 0 < m) (hm2 : m < 2 ^ 32)
    (h : 0 < exp ∨ 1 < m) :
    modpow base exp m = base ^ exp % m :=
  modpow_eq base exp m hm1 (by omega) h

theorem modpow_matches_reference_witness : modpow 3 5 7 = 3 ^ 5 % 7 :=
  modpow_matches_reference 3 5 7 (by decide) (by decide) (by decide) (by decide)
    (Or.inl (by decide))

/-- C5: for all `u, v` in `[0, 2^32)`, the binary `gcd` agrees with the
Euclidean reference `Nat.gcd`, including the boundary cases
`gcd(0, v) = v`, `gcd(u, 0) = u` and `gcd(0, 0) = 0`. -/
theorem gcd_matches_reference (u v : Nat) (hu : u < 2 ^ 32) (hv : v < 2 ^ 32) :
    gcd u v = Nat.gcd u v ∧ gcd 0 v = v ∧ gcd u 0 = u ∧ gcd 0 0 = 0 :=
  ⟨gcd_eq u v, by rw [gcd_eq]; exact Nat.gcd_zero_left v,
    by rw [gcd_eq]; exact Nat.gcd_zero_right u,
    by rw [gcd_eq]; exact Nat.gcd_zero_left 0⟩

theorem gcd_matches_reference_witness :
    gcd 12 18 = Nat.gcd 12 18 ∧ gcd 0 18 = 18 ∧ gcd 12 0 = 12 ∧ gcd 0 0 = 0 :=
  gcd_matches_reference 12 18 (by decide) (by decide)

/-- C6: for every index built with `maxb ≥ 1`, `maxp ≥ 3`, `mod ≥ 1` (a
`uint32_t`, so `mod < 2^32`) and every populated `(c, z)`, the stored value is
`c^z mod mod` (hence below `mod`), and the membership bitset contains it. -/
theorem cz_value_roundtrip (maxb maxp mod c z : Nat)
    (hmaxb : 1 ≤ maxb) (hmaxp : 3 ≤ maxp) (hmod : 1 ≤ mod) (hmod32 : mod < 2 ^ 32)
    (hc1 : 1 ≤ c) (hc2 : c ≤ maxb) (hz1 : 3 ≤ z) (hz2 : z ≤ maxp) :
    czGet mod c z = c ^ z % mod ∧ czGet mod c z < mod ∧
      czExists maxb maxp mod (czGet mod c z) = true := by
  have hval : czGet mod c z = c ^ z % mod :=
    modpow_eq c z mod (by omega) (by omega) (Or.inl (by omega))
  refine ⟨hval, by rw [hval]; exact Nat.mod_lt _ (by omega), ?_⟩
  rw [czExists_true_iff]
  exact ⟨(c, z), (mem_czPairs maxb maxp c z hmaxp).2 ⟨hc1, hc2, hz1, hz2⟩, rfl⟩

theorem cz_value_roundtrip_witness :
    czGet 7 2 3 = 2 ^ 3 % 7 ∧ czGet 7 2 3 < 7 ∧ czExists 2 4 7 (czGet 7 2 3) = true :=
  cz_value_roundtrip 2 4 7 2 3 (by decide) (by decide) (by decide) (by decide)
    (by decide) (by decide) (by decide) (by decide)

/-- C7: for every index built with `maxb ≥ 1`, `maxp ≥ 3`, `mod ≥ 1` and every
32-bit value `r`, if the membership bitset contains `r` then some populated
`(c, z)` in range stored exactly `r`: no bit is set except by a populated
residue. -/
theorem cz_contains_sound (maxb maxp mod r : Nat)
    (hmaxb : 1 ≤ maxb) (hmaxp : 3 ≤ maxp) (hmod : 1 ≤ mod) (hr : r < 2 ^ 32)
    (h : czExists maxb maxp mod r = true) :
    ∃ c z, 1 ≤ c ∧ c ≤ maxb ∧ 3 ≤ z ∧ z ≤ maxp ∧ czGet mod c z = r := by
  obtain ⟨⟨c, z⟩, hmem, hval⟩ := (czExists_true_iff maxb maxp mod r).1 h
  obtain ⟨h1, h2, h3, h4⟩ := (mem_czPairs maxb maxp c z hmaxp).1 hmem
  exact ⟨c, z, h1, h2, h3, h4, hval⟩

theorem cz_contains_sound_witness :
    ∃ c z, 1 ≤ c ∧ c ≤ 1 ∧ 3 ≤ z ∧ z ≤ 3 ∧ czGet 5 c z = 1 :=
  cz_contains_sound 1 3 5 1 (by decide) (by decide) (by decide) (by decide)
    (by decide)

/-- C8 counterexample: the enumerator for `a_fixed = 3` (with `maxb = maxp = 3`)
emits the point (3, 3, 2, 3), whose `b` component is 2, not 1: `b` does not
range only over `{1}`. -/
theorem shard3_b_range_counterexample :
    Pt.mk 3 3 2 3 ∈ (axbyRun 3 (axbyInit 3 3 3)).1 ∧ (Pt.mk 3 3 2 3).b ≠ 1 := by
  decide

/-- C8 (amended): for the enumerator created with `a_fixed = 3` (any
`maxb ≥ 3`, `maxp ≥ 3`), `b = 3` is skipped because `gcd(3, 3) = 3 > 1`, and
the `b` component of every emitted point ranges only over `{1, 2}`. -/
theorem shard3_b_range (maxb maxp fuel : Nat) (p : Pt)
    (hmaxb : 3 ≤ maxb) (hp3 : 3 ≤ maxp)
    (hfuel : (axbySpecList maxp 3).length < fuel)
    (hp : p ∈ (axbyRun fuel (axbyInit maxb maxp 3)).1) :
    (p.b = 1 ∨ p.b = 2) ∧ p.b ≠ 3 := by
  rw [axbyRun_init maxb maxp 3 fuel (by omega) hp3 hfuel] at hp
  obtain ⟨hpa, hb1, hb2, hgcd, -⟩ := (mem_axbySpecList maxp 3 p hp3).1 hp
  have h3 : p.b ≠ 3 := by
    intro h
    rw [h] at hgcd
    exact absurd hgcd (by decide)
  exact ⟨by omega, h3⟩

theorem shard3_b_range_witness :
    ((Pt.mk 3 3 1 3).b = 1 ∨ (Pt.mk 3 3 1 3).b = 2) ∧ (Pt.mk 3 3 1 3).b ≠ 3 :=
  shard3_b_range 3 3 3 (Pt.mk 3 3 1 3) (by decide) (by decide) (by decide)
    (by decide)

/-- C9 counterexample: the point (3, 21, 2, 31) of shard 3 (with `maxp = 31`)
has residues 2^31 + 1 and 2^31 under the modulus 4156434777, each below 2^32;
their sum 2^32 + 1 does not survive the 32-bit addition the code performs:
the addition wraps, so the hot-path arithmetic does overflow its width. -/
theorem hot_path_overflow_counterexample :
    Pt.mk 3 21 2 31 ∈ axbySpecList 31 3 ∧
      czGet 4156434777 3 21 < 2 ^ 32 ∧ czGet 4156434777 2 31 < 2 ^ 32 ∧
      (czGet 4156434777 3 21 + czGet 4156434777 2 31) % 2 ^ 32 ≠
        czGet 4156434777 3 21 + czGet 4156434777 2 31 :=
  ⟨(mem_axbySpecList 31 3 _ (by decide)).2 (by decide), by decide, by decide,
    by decide⟩

/-- C9 (amended): during `dowork a` with `1 ≤ a ≤ maxb`, every `get` call is
in the populated range (`1 ≤ c ≤ maxb`, `3 ≤ z ≤ maxp`), both residues are
below their modulus (hence below 2^32) and their mathematical sum is below
2^33, so a 64-bit sum could not overflow; but the code adds them in 32-bit
arithmetic, which is wrap-free only when the sum stays below 2^32 — guaranteed
whenever the modulus is at most 2^31. -/
theorem hot_path_safety (maxb maxp a m : Nat) (p : Pt)
    (ha1 : 1 ≤ a) (ha2 : a ≤ maxb) (hp3 : 3 ≤ maxp) (hm : 0 < m)
    (hm32 : m < 2 ^ 32) (hp : p ∈ axbySpecList maxp a) :
    (1 ≤ p.a ∧ p.a ≤ maxb ∧ 3 ≤ p.x ∧ p.x ≤ maxp ∧
      1 ≤ p.b ∧ p.b ≤ maxb ∧ 3 ≤ p.y ∧ p.y ≤ maxp) ∧
    czGet m p.a p.x < m ∧ czGet m p.b p.y < m ∧
    czGet m p.a p.x + czGet m p.b p.y < 2 ^ 64 ∧
    (m ≤ 2 ^ 31 →
      (czGet m p.a p.x + czGet m p.b p.y) % 2 ^ 32 =
        czGet m p.a p.x + czGet m p.b p.y) := by
  obtain ⟨hpa, hb1, hb2, hgcd, hx1, hx2, hy1, hy2⟩ :=
    (mem_axbySpecList maxp a p hp3).1 hp
  have h1 : czGet m p.a p.x < m := by
    rw [czGet, modpow_eq _ _ _ hm (by omega) (Or.inl (by omega))]
    exact Nat.mod_lt _ hm
  have h2 : czGet m p.b p.y < m := by
    rw [czGet, modpow_eq _ _ _ hm (by omega) (Or.inl (by omega))]
    exact Nat.mod_lt _ hm
  refine ⟨⟨by omega, by omega, hx1, hx2, hb1, by omega, hy1, hy2⟩, h1, h2,
    by omega, ?_⟩
  intro hm31
  exact Nat.mod_eq_of_lt (by omega)

theorem hot_path_safety_witness :
    (1 ≤ (Pt.mk 1 3 1 3).a ∧ (Pt.mk 1 3 1 3).a ≤ 1 ∧ 3 ≤ (Pt.mk 1 3 1 3).x ∧
      (Pt.mk 1 3 1 3).x ≤ 3 ∧ 1 ≤ (Pt.mk 1 3 1 3).b ∧ (Pt.mk 1 3 1 3).b ≤ 1 ∧
      3 ≤ (Pt.mk 1 3 1 3).y ∧ (Pt.mk 1 3 1 3).y ≤ 3) ∧
    czGet 5 (Pt.mk 1 3 1 3).a (Pt.mk 1 3 1 3).x < 5 ∧
    czGet 5 (Pt.mk 1 3 1 3).b (Pt.mk 1 3 1 3).y < 5 ∧
    czGet 5 (Pt.mk 1 3 1 3).a (Pt.mk 1 3 1 3).x +
      czGet 5 (Pt.mk 1 3 1 3).b (Pt.mk 1 3 1 3).y < 2 ^ 64 ∧
    (5 ≤ 2 ^ 31 →
      (czGet 5 (Pt.mk 1 3 1 3).a (Pt.mk 1 3 1 3).x +
          czGet 5 (Pt.mk 1 3 1 3).b (Pt.mk 1 3 1 3).y) % 2 ^ 32 =
        czGet 5 (Pt.mk 1 3 1 3).a (Pt.mk 1 3 1 3).x +
          czGet 5 (Pt.mk 1 3 1 3).b (Pt.mk 1 3 1 3).y) :=
  hot_path_safety 1 3 1 5 (Pt.mk 1 3 1 3) (by decide) (by decide) (by decide)
    (by decide) (by decide) (by decide)

/-- C10: when `next` signals `done = true` from a state satisfying the entry
assertion `p_.a == a_dim_`, the returned point carries `a = a_dim_ + 1`
(outside the shard), and the successor state violates the assertion, so any
further call to `next` asserts: the cursor is single-use and exhausted. -/
theorem cursor_done_exhausted (s : Axby) (p : Pt) (d : Bool) (s' : Axby)
    (hpre : axbyNextPre s) (hnext : axbyNext s = (p, d, s')) (hdone : d = true) :
    p.a = s.adim + 1 ∧ ¬axbyNextPre s' := by
  subst hdone
  unfold axbyNext at hnext
  by_cases h1 : s.p.y + 1 ≤ s.maxp
  · rw [if_pos h1] at hnext
    injection hnext with _ h2
    injection h2 with h4 _
    exact Bool.noConfusion h4
  · rw [if_neg h1] at hnext
    by_cases h2 : s.p.x + 1 ≤ s.maxp
    · rw [if_pos h2] at hnext
      injection hnext with _ h3
      injection h3 with h4 _
      exact Bool.noConfusion h4
    · rw [if_neg h2] at hnext
      by_cases h3 : (findB s.p.a (s.p.b + 1)).2
      · rw [if_pos h3] at hnext
        injection hnext with hp1 hrest
        injection hrest with _ hs1
        rw [← hp1, ← hs1]
        unfold axbyNextPre at hpre
        refine ⟨by simp [hpre], ?_⟩
        unfold axbyNextPre
        simp only []
        omega
      · rw [if_neg h3] at hnext
        injection hnext with _ h4
        injection h4 with h5 _
        exact Bool.noConfusion h5

theorem cursor_done_exhausted_witness :
    (Pt.mk 2 3 2 3).a = (Axby.mk 1 3 (Pt.mk 1 3 1 3) 1).adim + 1 ∧
      ¬axbyNextPre (Axby.mk 1 3 (Pt.mk 2 3 2 3) 1) :=
  cursor_done_exhausted (Axby.mk 1 3 (Pt.mk 1 3 1 3) 1) (Pt.mk 2 3 2 3) true
    (Axby.mk 1 3 (Pt.mk 2 3 2 3) 1) rfl (by decide) rfl

end Beal
